import Mathlib

/-
Verification of the `cursor_core` byte-scanning primitive.

The Rust type `Cursor<'a> { buf: &'a [u8], i: usize }` is embedded as a
structure holding the buffer as a list of bytes (naturals) together with
the read offset `i`.  Mutating Rust methods become functions from a
cursor to a (result, cursor) pair; read-only methods return just their
result.  Index arithmetic that cannot overflow in Rust (it stays within
`0 ..= buf.len()`) is plain `Nat` arithmetic; the two places where a
caller-supplied count is added to the offset (`peek_n`, `peek_slice`)
use explicit wrap-around modulo `2 ^ 64`, the behaviour of release-mode
`usize` addition.
-/

namespace CursorCore

/-- Width of the machine integer `usize` used for offsets: `2 ^ 64`. -/
def USIZE : Nat := 2 ^ 64

/-- The scanning state: borrowed byte buffer plus read offset `i`. -/
structure Cursor where
  buf : List Nat
  i : Nat
deriving DecidableEq

namespace Cursor

/-- Embeds `Cursor::new`: offset starts at 0. -/
def new (buf : List Nat) : Cursor := ⟨buf, 0⟩

/-- Embeds `eof`: `self.i >= self.buf.len()`. -/
def eof (c : Cursor) : Bool := c.buf.length ≤ c.i

/-- Embeds `pos`: the current offset. -/
def pos (c : Cursor) : Nat := c.i

/-- Embeds `remaining`: `buf.len().saturating_sub(i)` (Nat subtraction). -/
def remaining (c : Cursor) : Nat := c.buf.length - c.i

/-- Embeds `as_slice`: the view `buf[i..]`. -/
def as_slice (c : Cursor) : List Nat := c.buf.drop c.i

/-- Embeds `len`: the whole buffer length. -/
def len (c : Cursor) : Nat := c.buf.length

/-- Embeds `is_empty`: whether the whole buffer is empty. -/
def is_empty (c : Cursor) : Bool := c.buf.isEmpty

/-- Embeds `peek`: `buf.get(i)`, no mutation. -/
def peek (c : Cursor) : Option Nat := c.buf.get? c.i

/-- Embeds `peek_n`: `buf.get(i + n)`; the addition is release-mode
`usize` addition, hence taken modulo `2 ^ 64`. -/
def peek_n (c : Cursor) (n : Nat) : Option Nat := c.buf.get? ((c.i + n) % USIZE)

/-- Embeds `next_byte`: return the peeked byte and step, or `None`. -/
def next_byte (c : Cursor) : Option Nat × Cursor :=
  match peek c with
  | none => (none, c)
  | some b => (some b, ⟨c.buf, c.i + 1⟩)

/-- Embeds `advance`: `step = min n remaining`, add it to `i`, return it. -/
def advance (c : Cursor) (n : Nat) : Nat × Cursor :=
  let rem := remaining c
  let step := if n > rem then rem else n
  (step, ⟨c.buf, c.i + step⟩)

/-- Embeds `skip_byte`: consume one byte iff it equals `b`. -/
def skip_byte (c : Cursor) (b : Nat) : Bool × Cursor :=
  if peek c = some b then (true, ⟨c.buf, c.i + 1⟩) else (false, c)

/-- Embeds `mark`: the current offset as a bookmark. -/
def mark (c : Cursor) : Nat := c.i

/-- Embeds `reset`: `i = m.min(buf.len())`. -/
def reset (c : Cursor) (m : Nat) : Cursor := ⟨c.buf, Nat.min m c.buf.length⟩

/-- Embeds `is_space_ascii`: membership in
`{' ', '\t', '\n', '\r', form feed 0x0C, vertical tab 0x0B}`. -/
def is_space_ascii (b : Nat) : Bool :=
  b == 32 || b == 9 || b == 10 || b == 13 || b == 12 || b == 11

/-- The `while let Some(&b) = buf.get(i) { if !p(b) break; i += 1 }` loop
shared verbatim by `skip_space`, `skip_while`, `take_while` and the
identifier/integer scanners, as a recursive function on the cursor. -/
def scanWhile (p : Nat → Bool) (c : Cursor) : Cursor :=
  match hb : peek c with
  | none => c
  | some b => if p b then scanWhile p ⟨c.buf, c.i + 1⟩ else c
termination_by c.buf.length - c.i
decreasing_by
  have hlt : c.i < c.buf.length := by
    by_contra hge
    rw [peek, List.get?_eq_none.mpr (Nat.le_of_not_lt hge)] at hb
    exact Option.noConfusion hb
  omega

/-- Embeds `skip_space`: the scan loop at `is_space_ascii`, returning the
number of bytes skipped (`i - start`). -/
def skip_space (c : Cursor) : Nat × Cursor :=
  let c1 := scanWhile is_space_ascii c
  (c1.i - c.i, c1)

/-- Embeds `skip_until`: jump to the first occurrence of `b` in `buf[i..]`
(Rust `iter().position`), or to end of buffer when there is none. -/
def skip_until (c : Cursor) (b : Nat) : Nat × Cursor :=
  match (c.buf.drop c.i).findIdx? (fun x => x == b) with
  | some off => (off, ⟨c.buf, c.i + off⟩)
  | none => (remaining c, ⟨c.buf, c.buf.length⟩)

/-- Embeds `match_bytes`: `buf[i..].starts_with(pat)`, consuming
`pat.len()` on success. -/
def match_bytes (c : Cursor) (pat : List Nat) : Bool × Cursor :=
  if pat.isPrefixOf (c.buf.drop c.i) then (true, ⟨c.buf, c.i + pat.length⟩)
  else (false, c)

/-- Embeds `expect_bytes`: `match_bytes` with rollback to the mark on
failure. -/
def expect_bytes (c : Cursor) (pat : List Nat) : Bool × Cursor :=
  let m := mark c
  let r := match_bytes c pat
  if r.1 then (true, r.2) else (false, reset r.2 m)

/-- Embeds `is_ident_continue_ascii` and the predicate used by
`take_ident_ascii`: ASCII alphanumeric or underscore. -/
def is_ident_continue_ascii (b : Nat) : Bool :=
  (48 ≤ b && b ≤ 57) || (65 ≤ b && b ≤ 90) || (97 ≤ b && b ≤ 122) || b == 95

/-- Embeds `is_ident_start_ascii`: ASCII letter or underscore. -/
def is_ident_start_ascii (b : Nat) : Bool :=
  (65 ≤ b && b ≤ 90) || (97 ≤ b && b ≤ 122) || b == 95

/-- Embeds `take_ident_ascii`: the scan loop at the identifier predicate,
returning `Some (start, i)` iff at least one byte matched. -/
def take_ident_ascii (c : Cursor) : Option (Nat × Nat) × Cursor :=
  let c1 := scanWhile is_ident_continue_ascii c
  (if c.i < c1.i then some (c.i, c1.i) else none, c1)

/-- Embeds `take_ident_starting_alpha`: first byte must satisfy the start
predicate (consumed), then the continue-loop; `None` without consumption
otherwise. -/
def take_ident_starting_alpha (c : Cursor) : Option (Nat × Nat) × Cursor :=
  match peek c with
  | some b =>
      if is_ident_start_ascii b then
        let c1 := scanWhile is_ident_continue_ascii ⟨c.buf, c.i + 1⟩
        (some (c.i, c1.i), c1)
      else (none, c)
  | none => (none, c)

/-- Embeds the digit test `b'0'..=b'9'` of `take_int_ascii`. -/
def is_digit_ascii (b : Nat) : Bool := 48 ≤ b && b ≤ 57

/-- Embeds `take_int_ascii`: `None` unless the current byte is a digit,
else the maximal digit run. -/
def take_int_ascii (c : Cursor) : Option (Nat × Nat) × Cursor :=
  match peek c with
  | some b =>
      if is_digit_ascii b then
        let c1 := scanWhile is_digit_ascii c
        (some (c.i, c1.i), c1)
      else (none, c)
  | none => (none, c)

/-- Embeds `skip_while`: the scan loop at `p`, returning bytes skipped. -/
def skip_while (p : Nat → Bool) (c : Cursor) : Nat × Cursor :=
  let c1 := scanWhile p c
  (c1.i - c.i, c1)

/-- Embeds `take_while`: the scan loop at `p`, returning `Some (start, i)`
iff at least one byte matched. -/
def take_while (p : Nat → Bool) (c : Cursor) : Option (Nat × Nat) × Cursor :=
  let c1 := scanWhile p c
  (if c.i < c1.i then some (c.i, c1.i) else none, c1)

/-- Embeds `expect_byte`: `skip_byte` with rollback to the mark on
failure. -/
def expect_byte (c : Cursor) (b : Nat) : Bool × Cursor :=
  let m := mark c
  let r := skip_byte c b
  if r.1 then (true, r.2) else (false, reset r.2 m)

/-- The scanning loop of `take_until_unescaped`: on the escape byte, skip
it and (unless at end) the following byte, unconditionally; break on the
delimiter; otherwise step. -/
def tuuLoop (delim esc : Nat) (c : Cursor) : Cursor :=
  match hb : peek c with
  | none => c
  | some b =>
      if b == esc then
        let c1 : Cursor := ⟨c.buf, c.i + 1⟩
        let c2 : Cursor := if eof c1 then c1 else ⟨c1.buf, c1.i + 1⟩
        tuuLoop delim esc c2
      else if b == delim then c
      else tuuLoop delim esc ⟨c.buf, c.i + 1⟩
termination_by c.buf.length - c.i
decreasing_by
  · have hlt : c.i < c.buf.length := by
      by_contra hge
      rw [peek, List.get?_eq_none.mpr (Nat.le_of_not_lt hge)] at hb
      exact Option.noConfusion hb
    simp only [eof]
    split <;> (dsimp only; omega)
  · have hlt : c.i < c.buf.length := by
      by_contra hge
      rw [peek, List.get?_eq_none.mpr (Nat.le_of_not_lt hge)] at hb
      exact Option.noConfusion hb
    omega

/-- Embeds `take_until_unescaped`: run the loop, then return bytes
advanced and `found = (peek() == Some(delim))`. -/
def take_until_unescaped (c : Cursor) (delim esc : Nat) : (Nat × Bool) × Cursor :=
  let c1 := tuuLoop delim esc c
  ((c1.i - c.i, peek c1 == some delim), c1)

/-- The scanning loop of `take_until_unescaped2`: same escaping, break on
either delimiter `a` or `b`. -/
def tuu2Loop (a b esc : Nat) (c : Cursor) : Cursor :=
  match hb : peek c with
  | none => c
  | some ch =>
      if ch == esc then
        let c1 : Cursor := ⟨c.buf, c.i + 1⟩
        let c2 : Cursor := if eof c1 then c1 else ⟨c1.buf, c1.i + 1⟩
        tuu2Loop a b esc c2
      else if ch == a || ch == b then c
      else tuu2Loop a b esc ⟨c.buf, c.i + 1⟩
termination_by c.buf.length - c.i
decreasing_by
  · have hlt : c.i < c.buf.length := by
      by_contra hge
      rw [peek, List.get?_eq_none.mpr (Nat.le_of_not_lt hge)] at hb
      exact Option.noConfusion hb
    simp only [eof]
    split <;> (dsimp only; omega)
  · have hlt : c.i < c.buf.length := by
      by_contra hge
      rw [peek, List.get?_eq_none.mpr (Nat.le_of_not_lt hge)] at hb
      exact Option.noConfusion hb
    omega

/-- Embeds `take_until_unescaped2`: run the loop, then report which
delimiter (if any) the final peek sees. -/
def take_until_unescaped2 (c : Cursor) (a b esc : Nat) : (Nat × Option Nat) × Cursor :=
  let c1 := tuu2Loop a b esc c
  let found : Option Nat :=
    match peek c1 with
    | some x => if x == a || x == b then some x else none
    | none => none
  ((c1.i - c.i, found), c1)

/-- Embeds `starts_with`: `buf[i..].starts_with(pat)`, no mutation. -/
def starts_with (c : Cursor) (pat : List Nat) : Bool :=
  pat.isPrefixOf (c.buf.drop c.i)

/-- Embeds `peek_slice`: `buf.get(i .. i + n)`; the end index is computed
with release-mode `usize` addition (modulo `2 ^ 64`), and range indexing
yields the slice exactly when `i ≤ end ≤ buf.len()`. -/
def peek_slice (c : Cursor) (n : Nat) : Option (List Nat) :=
  let e := (c.i + n) % USIZE
  if c.i ≤ e ∧ e ≤ c.buf.length then some ((c.buf.drop c.i).take (e - c.i))
  else none

/-- Embeds the `Iterator` impl for `Cursor`: its step delegates to
`next_byte`. -/
def iterNext (c : Cursor) : Option Nat × Cursor := next_byte c

/-- External iteration to exhaustion: call `next_byte` repeatedly,
collecting the yielded bytes until it returns `none`. -/
def drain (c : Cursor) : List Nat :=
  match hb : (next_byte c).1 with
  | none => []
  | some b => b :: drain (next_byte c).2
termination_by c.buf.length - c.i
decreasing_by
  have hlt : c.i < c.buf.length := by
    by_contra hge
    rw [next_byte, peek, List.get?_eq_none.mpr (Nat.le_of_not_lt hge)] at hb
    exact Option.noConfusion hb
  have h2 : (next_byte c).2.i = c.i + 1 ∧ (next_byte c).2.buf = c.buf := by
    rw [next_byte, peek, List.get?_eq_some.mpr ⟨hlt, rfl⟩]
    exact ⟨rfl, rfl⟩
  rw [h2.1, h2.2]
  omega

/-- Modelled from the spec: `take_space` (section 4.6) is absent from
`src` (the test suite calls it); per the spec it is `take_while`
specialized to the ASCII whitespace set. -/
def take_space (c : Cursor) : Option (Nat × Nat) × Cursor :=
  take_while is_space_ascii c

/-- Modelled from the spec: `slice_from` (section 4.4) is absent from
`src`; per the spec it returns `buffer[bookmark..offset]` clamped to the
buffer bounds (empty when `bookmark > offset`), without mutating. -/
def slice_from (c : Cursor) (m : Nat) : List Nat :=
  (c.buf.take c.i).drop m

/-- The offset invariant `0 <= offset <= length(buffer)` of the spec's
data model. -/
def inv (c : Cursor) : Prop := c.i ≤ c.buf.length

/-! Helper lemmas about `peek` and the scan loops. -/

theorem peek_eq_none_iff {c : Cursor} : peek c = none ↔ c.buf.length ≤ c.i := by
  rw [peek, List.get?_eq_none]

theorem lt_length_of_peek_some {c : Cursor} {b : Nat} (h : peek c = some b) :
    c.i < c.buf.length := by
  by_contra hge
  rw [peek_eq_none_iff.mpr (Nat.le_of_not_lt hge)] at h
  exact Option.noConfusion h

theorem drop_eq_cons_of_peek_some {c : Cursor} {b : Nat} (h : peek c = some b) :
    c.buf.drop c.i = b :: c.buf.drop (c.i + 1) := by
  have hlt := lt_length_of_peek_some h
  have hb : c.buf[c.i] = b := by
    have := (List.get?_eq_some.mp h).choose_spec
    simpa [List.get_eq_getElem] using this
  rw [List.drop_eq_getElem_cons hlt, hb]

theorem scanWhile_peek_none {p : Nat → Bool} {c : Cursor} (h : peek c = none) :
    scanWhile p c = c := by
  rw [scanWhile.eq_def, h]

theorem scanWhile_peek_pos {p : Nat → Bool} {c : Cursor} {b : Nat}
    (h : peek c = some b) (hp : p b = true) :
    scanWhile p c = scanWhile p ⟨c.buf, c.i + 1⟩ := by
  rw [scanWhile.eq_def, h]
  simp [hp]

theorem scanWhile_peek_neg {p : Nat → Bool} {c : Cursor} {b : Nat}
    (h : peek c = some b) (hp : p b = false) :
    scanWhile p c = c := by
  rw [scanWhile.eq_def, h]
  simp [hp]

/-- The scan loop lands at the end of the maximal leading run of bytes
satisfying `p` in the unread part of the buffer. -/
theorem scanWhile_eq (p : Nat → Bool) (c : Cursor) :
    scanWhile p c = ⟨c.buf, c.i + ((c.buf.drop c.i).takeWhile p).length⟩ := by
  have H : ∀ (k : Nat) (c : Cursor), c.buf.length - c.i ≤ k →
      scanWhile p c = ⟨c.buf, c.i + ((c.buf.drop c.i).takeWhile p).length⟩ := by
    intro k
    induction k with
    | zero =>
        intro c hk
        have hnone : peek c = none := peek_eq_none_iff.mpr (by omega)
        rw [scanWhile_peek_none hnone, List.drop_eq_nil_of_le (by omega)]
        simp
    | succ k ih =>
        intro c hk
        match hb : peek c with
        | none =>
            have hge := peek_eq_none_iff.mp hb
            rw [scanWhile_peek_none hb, List.drop_eq_nil_of_le hge]
            simp
        | some b =>
            have hlt := lt_length_of_peek_some hb
            have hdrop := drop_eq_cons_of_peek_some hb
            by_cases hp : p b = true
            · rw [scanWhile_peek_pos hb hp, ih ⟨c.buf, c.i + 1⟩ (by dsimp; omega)]
              rw [hdrop, List.takeWhile_cons, if_pos hp]
              dsimp
              congr 1
              omega
            · rw [scanWhile_peek_neg hb (Bool.of_not_eq_true hp), hdrop,
                List.takeWhile_cons, if_neg hp]
              simp
  exact H _ c le_rfl

theorem scanWhile_buf (p : Nat → Bool) (c : Cursor) :
    (scanWhile p c).buf = c.buf := by
  rw [scanWhile_eq]

theorem scanWhile_i (p : Nat → Bool) (c : Cursor) :
    (scanWhile p c).i = c.i + ((c.buf.drop c.i).takeWhile p).length := by
  rw [scanWhile_eq]

theorem scanWhile_inv {p : Nat → Bool} {c : Cursor} (h : inv c) :
    inv (scanWhile p c) := by
  rw [scanWhile_eq]
  have hle : ((c.buf.drop c.i).takeWhile p).length ≤ (c.buf.drop c.i).length :=
    (List.takeWhile_sublist p).length_le
  rw [inv] at h ⊢
  dsimp
  rw [List.length_drop] at hle
  omega

theorem tuuLoop_peek_none {d e : Nat} {c : Cursor} (h : peek c = none) :
    tuuLoop d e c = c := by
  rw [tuuLoop.eq_def, h]

theorem tuuLoop_peek_esc {d e : Nat} {c : Cursor} (h : peek c = some e) :
    tuuLoop d e c =
      tuuLoop d e (if eof ⟨c.buf, c.i + 1⟩ then ⟨c.buf, c.i + 1⟩
                   else ⟨c.buf, c.i + 1 + 1⟩) := by
  rw [tuuLoop.eq_def, h]
  simp only [beq_self_eq_true, if_true]

theorem tuuLoop_peek_delim {d e : Nat} {c : Cursor} (h : peek c = some d)
    (hne : d ≠ e) : tuuLoop d e c = c := by
  rw [tuuLoop.eq_def, h]
  simp [hne]

theorem tuuLoop_peek_step {d e b : Nat} {c : Cursor} (h : peek c = some b)
    (hne : b ≠ e) (hnd : b ≠ d) : tuuLoop d e c = tuuLoop d e ⟨c.buf, c.i + 1⟩ := by
  rw [tuuLoop.eq_def, h]
  simp [hne, hnd]

/-- Structural facts about the `take_until_unescaped` loop: it keeps the
buffer, never moves backwards, respects the offset invariant, and stops
either at end of buffer or at an unescaped occurrence of the delimiter. -/
theorem tuuLoop_spec (d e : Nat) (c : Cursor) :
    (tuuLoop d e c).buf = c.buf ∧ c.i ≤ (tuuLoop d e c).i ∧
      (c.i ≤ c.buf.length → (tuuLoop d e c).i ≤ c.buf.length) ∧
      (peek (tuuLoop d e c) = none ∨
        (peek (tuuLoop d e c) = some d ∧ d ≠ e)) := by
  have H : ∀ (k : Nat) (c : Cursor), c.buf.length - c.i ≤ k →
      (tuuLoop d e c).buf = c.buf ∧ c.i ≤ (tuuLoop d e c).i ∧
        (c.i ≤ c.buf.length → (tuuLoop d e c).i ≤ c.buf.length) ∧
        (peek (tuuLoop d e c) = none ∨
          (peek (tuuLoop d e c) = some d ∧ d ≠ e)) := by
    intro k
    induction k with
    | zero =>
        intro c hk
        have hnone : peek c = none := peek_eq_none_iff.mpr (by omega)
        rw [tuuLoop_peek_none hnone]
        exact ⟨rfl, le_rfl, fun h => h, Or.inl hnone⟩
    | succ k ih =>
        intro c hk
        match hb : peek c with
        | none =>
            rw [tuuLoop_peek_none hb]
            exact ⟨rfl, le_rfl, fun h => h, Or.inl hb⟩
        | some b =>
            have hlt := lt_length_of_peek_some hb
            by_cases hesc : b = e
            · subst hesc
              rw [tuuLoop_peek_esc hb]
              by_cases hend : eof ⟨c.buf, c.i + 1⟩ = true
              · rw [if_pos hend]
                have hk2 : c.buf.length - (c.i + 1) ≤ k := by omega
                obtain ⟨h1, h2, h3, h4⟩ := ih ⟨c.buf, c.i + 1⟩ hk2
                dsimp only at h1 h2 h3
                exact ⟨h1, by omega, fun _ => h3 (by omega), h4⟩
              · rw [if_neg hend]
                have hee : ¬ (c.buf.length ≤ c.i + 1) := by
                  intro hcon
                  exact hend (by simp [eof]; omega)
                have hk2 : c.buf.length - (c.i + 1 + 1) ≤ k := by omega
                obtain ⟨h1, h2, h3, h4⟩ := ih ⟨c.buf, c.i + 1 + 1⟩ hk2
                dsimp only at h1 h2 h3
                exact ⟨h1, by omega, fun _ => h3 (by omega), h4⟩
            · by_cases hdel : b = d
              · subst hdel
                rw [tuuLoop_peek_delim hb hesc]
                exact ⟨rfl, le_rfl, fun h => h, Or.inr ⟨hb, hesc⟩⟩
              · rw [tuuLoop_peek_step hb hesc hdel]
                have hk2 : c.buf.length - (c.i + 1) ≤ k := by omega
                obtain ⟨h1, h2, h3, h4⟩ := ih ⟨c.buf, c.i + 1⟩ hk2
                dsimp only at h1 h2 h3
                exact ⟨h1, by omega, fun _ => h3 (by omega), h4⟩
  exact H _ c le_rfl

theorem tuu2Loop_peek_none {a b e : Nat} {c : Cursor} (h : peek c = none) :
    tuu2Loop a b e c = c := by
  rw [tuu2Loop.eq_def, h]

theorem tuu2Loop_peek_esc {a b e : Nat} {c : Cursor} (h : peek c = some e) :
    tuu2Loop a b e c =
      tuu2Loop a b e (if eof ⟨c.buf, c.i + 1⟩ then ⟨c.buf, c.i + 1⟩
                      else ⟨c.buf, c.i + 1 + 1⟩) := by
  rw [tuu2Loop.eq_def, h]
  simp only [beq_self_eq_true, if_true]

theorem tuu2Loop_peek_delim {a b e x : Nat} {c : Cursor} (h : peek c = some x)
    (hne : x ≠ e) (hd : x = a ∨ x = b) : tuu2Loop a b e c = c := by
  rw [tuu2Loop.eq_def, h]
  rcases hd with rfl | rfl <;> simp [hne]

theorem tuu2Loop_peek_step {a b e x : Nat} {c : Cursor} (h : peek c = some x)
    (hne : x ≠ e) (hna : x ≠ a) (hnb : x ≠ b) :
    tuu2Loop a b e c = tuu2Loop a b e ⟨c.buf, c.i + 1⟩ := by
  rw [tuu2Loop.eq_def, h]
  simp [hne, hna, hnb]

/-- Structural facts about the `take_until_unescaped2` loop: it keeps the
buffer, never moves backwards, respects the offset invariant, and stops
either at end of buffer or at an unescaped occurrence of one of the two
delimiters, which in particular differs from the escape byte. -/
theorem tuu2Loop_spec (a b e : Nat) (c : Cursor) :
    (tuu2Loop a b e c).buf = c.buf ∧ c.i ≤ (tuu2Loop a b e c).i ∧
      (c.i ≤ c.buf.length → (tuu2Loop a b e c).i ≤ c.buf.length) ∧
      (peek (tuu2Loop a b e c) = none ∨
        (∃ x, peek (tuu2Loop a b e c) = some x ∧ x ≠ e ∧ (x = a ∨ x = b))) := by
  have H : ∀ (k : Nat) (c : Cursor), c.buf.length - c.i ≤ k →
      (tuu2Loop a b e c).buf = c.buf ∧ c.i ≤ (tuu2Loop a b e c).i ∧
        (c.i ≤ c.buf.length → (tuu2Loop a b e c).i ≤ c.buf.length) ∧
        (peek (tuu2Loop a b e c) = none ∨
          (∃ x, peek (tuu2Loop a b e c) = some x ∧ x ≠ e ∧ (x = a ∨ x = b))) := by
    intro k
    induction k with
    | zero =>
        intro c hk
        have hnone : peek c = none := peek_eq_none_iff.mpr (by omega)
        rw [tuu2Loop_peek_none hnone]
        exact ⟨rfl, le_rfl, fun h => h, Or.inl hnone⟩
    | succ k ih =>
        intro c hk
        match hb : peek c with
        | none =>
            rw [tuu2Loop_peek_none hb]
            exact ⟨rfl, le_rfl, fun h => h, Or.inl hb⟩
        | some x =>
            have hlt := lt_length_of_peek_some hb
            by_cases hesc : x = e
            · subst hesc
              rw [tuu2Loop_peek_esc hb]
              by_cases hend : eof ⟨c.buf, c.i + 1⟩ = true
              · rw [if_pos hend]
                obtain ⟨h1, h2, h3, h4⟩ := ih ⟨c.buf, c.i + 1⟩ (by dsimp only; omega)
                dsimp only at h1 h2 h3
                exact ⟨h1, by omega, fun _ => h3 (by omega), h4⟩
              · rw [if_neg hend]
                have hee : ¬ (c.buf.length ≤ c.i + 1) := by
                  intro hcon
                  exact hend (by simp [eof]; omega)
                obtain ⟨h1, h2, h3, h4⟩ := ih ⟨c.buf, c.i + 1 + 1⟩ (by dsimp only; omega)
                dsimp only at h1 h2 h3
                exact ⟨h1, by omega, fun _ => h3 (by omega), h4⟩
            · by_cases hdel : x = a ∨ x = b
              · rw [tuu2Loop_peek_delim hb hesc hdel]
                exact ⟨rfl, le_rfl, fun h => h, Or.inr ⟨x, hb, hesc, hdel⟩⟩
              · push_neg at hdel
                rw [tuu2Loop_peek_step hb hesc hdel.1 hdel.2]
                obtain ⟨h1, h2, h3, h4⟩ := ih ⟨c.buf, c.i + 1⟩ (by dsimp only; omega)
                dsimp only at h1 h2 h3
                exact ⟨h1, by omega, fun _ => h3 (by omega), h4⟩
  exact H _ c le_rfl

theorem findIdx?_bounds {p : Nat → Bool} :
    ∀ (l : List Nat) (i k : Nat), List.findIdx? p l i = some k →
      i ≤ k ∧ k < i + l.length := by
  intro l
  induction l with
  | nil => intro i k h; exact Option.noConfusion h
  | cons a t ih =>
      intro i k h
      rw [List.findIdx?_cons] at h
      by_cases hp : p a = true
      · rw [if_pos hp] at h
        have hk : k = i := (Option.some.inj h).symm
        subst hk
        rw [List.length_cons]
        omega
      · rw [if_neg hp] at h
        obtain ⟨h1, h2⟩ := ih (i + 1) k h
        rw [List.length_cons]
        omega

theorem next_byte_peek_none {c : Cursor} (h : peek c = none) :
    next_byte c = (none, c) := by
  simp [next_byte, h]

theorem next_byte_peek_some {c : Cursor} {b : Nat} (h : peek c = some b) :
    next_byte c = (some b, ⟨c.buf, c.i + 1⟩) := by
  simp [next_byte, h]

theorem drain_peek_none {c : Cursor} (h : peek c = none) : drain c = [] := by
  rw [drain.eq_def]
  split
  · rfl
  · next b hb =>
      rw [next_byte_peek_none h] at hb
      exact absurd hb (by simp)

theorem drain_peek_some {c : Cursor} {b : Nat} (h : peek c = some b) :
    drain c = b :: drain ⟨c.buf, c.i + 1⟩ := by
  rw [drain.eq_def]
  split
  · next hb =>
      rw [next_byte_peek_some h] at hb
      exact absurd hb (by simp)
  · next b' hb =>
      rw [next_byte_peek_some h] at hb
      have hb' : b' = b := by
        have := Option.some.inj hb
        exact this.symm
      subst hb'
      rw [next_byte_peek_some h]

/-- Repeatedly calling `next_byte` yields exactly the unread bytes. -/
theorem drain_eq (c : Cursor) : drain c = c.buf.drop c.i := by
  have H : ∀ (k : Nat) (c : Cursor), c.buf.length - c.i ≤ k →
      drain c = c.buf.drop c.i := by
    intro k
    induction k with
    | zero =>
        intro c hk
        have hnone : peek c = none := peek_eq_none_iff.mpr (by omega)
        rw [drain_peek_none hnone, List.drop_eq_nil_of_le (by omega)]
    | succ k ih =>
        intro c hk
        match hb : peek c with
        | none =>
            rw [drain_peek_none hb,
              List.drop_eq_nil_of_le (peek_eq_none_iff.mp hb)]
        | some b =>
            have hlt := lt_length_of_peek_some hb
            rw [drain_peek_some hb, ih ⟨c.buf, c.i + 1⟩ (by dsimp only; omega),
              drop_eq_cons_of_peek_some hb]
  exact H _ c le_rfl

/-- With the delimiter equal to the escape byte, the escape branch fires
at every occurrence, so the loop runs to the end of the buffer. -/
theorem tuuLoop_delim_eq_esc (e : Nat) (c : Cursor) (hinv : inv c) :
    tuuLoop e e c = ⟨c.buf, c.buf.length⟩ := by
  have H : ∀ (k : Nat) (c : Cursor), c.buf.length - c.i ≤ k → c.i ≤ c.buf.length →
      tuuLoop e e c = ⟨c.buf, c.buf.length⟩ := by
    intro k
    induction k with
    | zero =>
        intro c hk hi
        have hnone : peek c = none := peek_eq_none_iff.mpr (by omega)
        rw [tuuLoop_peek_none hnone]
        have : c.i = c.buf.length := by omega
        calc c = ⟨c.buf, c.i⟩ := rfl
          _ = ⟨c.buf, c.buf.length⟩ := by rw [this]
    | succ k ih =>
        intro c hk hi
        match hb : peek c with
        | none =>
            rw [tuuLoop_peek_none hb]
            have hge := peek_eq_none_iff.mp hb
            have : c.i = c.buf.length := by omega
            calc c = ⟨c.buf, c.i⟩ := rfl
              _ = ⟨c.buf, c.buf.length⟩ := by rw [this]
        | some b =>
            have hlt := lt_length_of_peek_some hb
            by_cases hesc : b = e
            · subst hesc
              rw [tuuLoop_peek_esc hb]
              by_cases hend : eof ⟨c.buf, c.i + 1⟩ = true
              · rw [if_pos hend]
                exact ih ⟨c.buf, c.i + 1⟩ (by dsimp only; omega)
                  (by dsimp only; omega)
              · have hee : ¬ (c.buf.length ≤ c.i + 1) := by
                  intro hcon
                  exact hend (by simp [eof]; omega)
                rw [if_neg hend]
                exact ih ⟨c.buf, c.i + 1 + 1⟩ (by dsimp only; omega)
                  (by dsimp only; omega)
            · rw [tuuLoop_peek_step hb hesc hesc]
              exact ih ⟨c.buf, c.i + 1⟩ (by dsimp only; omega) (by dsimp only; omega)
  exact H _ c le_rfl hinv

/-- Shared characterization of `take_while`: final state, the
absent-iff-nothing-matched condition, no consumption on absence, and the
returned span on success. -/
theorem take_while_spec (p : Nat → Bool) (c : Cursor) :
    (take_while p c).2 = ⟨c.buf, c.i + ((c.buf.drop c.i).takeWhile p).length⟩ ∧
      ((take_while p c).1 = none ↔ ((c.buf.drop c.i).takeWhile p).length = 0) ∧
      ((take_while p c).1 = none → (take_while p c).2 = c) ∧
      ((take_while p c).1 ≠ none →
        (take_while p c).1 =
          some (c.i, c.i + ((c.buf.drop c.i).takeWhile p).length)) := by
  have h := scanWhile_eq p c
  have h2 : (take_while p c).2 = ⟨c.buf, c.i + ((c.buf.drop c.i).takeWhile p).length⟩ := h
  have h1 : (take_while p c).1 =
      if c.i < c.i + ((c.buf.drop c.i).takeWhile p).length then
        some (c.i, c.i + ((c.buf.drop c.i).takeWhile p).length)
      else none := by
    simp only [take_while, h]
  refine ⟨h2, ?_, ?_, ?_⟩
  · rw [h1]
    split
    · next hc =>
        constructor
        · intro hx
          exact absurd hx (by simp)
        · intro hx
          exact absurd hc (by omega)
    · next hc =>
        simp only [true_iff]
        omega
  · intro hx
    rw [h1] at hx
    rw [h2]
    split at hx
    · exact absurd hx (by simp)
    · next hc =>
        have hz : ((c.buf.drop c.i).takeWhile p).length = 0 := by omega
        rw [hz]
        exact rfl
  · intro hx
    by_cases hc : c.i < c.i + ((c.buf.drop c.i).takeWhile p).length
    · rw [h1, if_pos hc]
    · rw [h1, if_neg hc] at hx
      exact absurd rfl hx

/-- Claim C1 (code side): the claim states `advance(n)` is all-or-nothing
with the offset unchanged when `n` exceeds the remaining length, as the
repository's own test `advance_and_remaining` also asserts.  Evaluating
the code at buffer `"abc"` (bytes 97 98 99) with `n = 10` shows it
instead clamps: it moves the offset from 0 to 3 and returns 3. -/
theorem claim1_advance_clamps_at_failing_input :
    advance (new [97, 98, 99]) 10 = (3, ⟨[97, 98, 99], 3⟩) ∧
      pos (advance (new [97, 98, 99]) 10).2 ≠ pos (new [97, 98, 99]) ∧
      10 > remaining (new [97, 98, 99]) := by
  refine ⟨by decide, by decide, by decide⟩

/-- Claim C2: `take_space` (modelled from the spec as `take_while`
specialized to `is_space_ascii`, since `src` only has the count-returning
`skip_space`) consumes exactly the maximal leading run of the ASCII
whitespace set and is absent, with no consumption, iff zero whitespace
bytes match; it performs the same traversal as the source's `skip_space`,
whose result is that run's length; and on `"### title"` after
`expect_bytes("###")` it consumes exactly 1 byte leaving `"title"`. -/
theorem claim2_take_space_maximal_run (c : Cursor) :
    take_space c = take_while is_space_ascii c ∧
      (take_space c).2 = (skip_space c).2 ∧
      (skip_space c).1 = ((c.buf.drop c.i).takeWhile is_space_ascii).length ∧
      (take_space c).2.buf = c.buf ∧
      (take_space c).2.i =
        c.i + ((c.buf.drop c.i).takeWhile is_space_ascii).length ∧
      ((take_space c).1 = none ↔
        ((c.buf.drop c.i).takeWhile is_space_ascii).length = 0) ∧
      ((take_space c).1 = none → (take_space c).2 = c) ∧
      (expect_bytes (new [35, 35, 35, 32, 116, 105, 116, 108, 101]) [35, 35, 35] =
        (true, ⟨[35, 35, 35, 32, 116, 105, 116, 108, 101], 3⟩) ∧
        skip_space ⟨[35, 35, 35, 32, 116, 105, 116, 108, 101], 3⟩ =
          (1, ⟨[35, 35, 35, 32, 116, 105, 116, 108, 101], 4⟩) ∧
        (take_space ⟨[35, 35, 35, 32, 116, 105, 116, 108, 101], 3⟩).1 =
          some (3, 4) ∧
        as_slice ⟨[35, 35, 35, 32, 116, 105, 116, 108, 101], 4⟩ =
          [116, 105, 116, 108, 101]) := by
  obtain ⟨h2, hiff, hnone, _⟩ := take_while_spec is_space_ascii c
  have hs := scanWhile_eq is_space_ascii c
  have hcc : scanWhile is_space_ascii ⟨[35, 35, 35, 32, 116, 105, 116, 108, 101], 3⟩ =
      ⟨[35, 35, 35, 32, 116, 105, 116, 108, 101], 4⟩ := by
    rw [scanWhile_eq]
    decide
  refine ⟨rfl, rfl, ?_, ?_, ?_, hiff, hnone, by decide, ?_, ?_, by decide⟩
  · show (scanWhile is_space_ascii c).i - c.i = _
    rw [scanWhile_i]
    omega
  · simp only [take_space]
    rw [h2]
  · simp only [take_space]
    rw [h2]
  · show ((scanWhile is_space_ascii ⟨_, 3⟩).i - 3, scanWhile is_space_ascii ⟨_, 3⟩) = _
    rw [hcc]
    decide
  · show (if 3 < (scanWhile is_space_ascii ⟨_, 3⟩).i then
        some (3, (scanWhile is_space_ascii ⟨_, 3⟩).i) else none) = _
    rw [hcc]
    decide

/-- Witness for claim C2 at `c = new [32, 97]` (a space then `a`). -/
theorem claim2_take_space_maximal_run_witness :
    take_space (new [32, 97]) = take_while is_space_ascii (new [32, 97]) ∧
      (take_space (new [32, 97])).2 = (skip_space (new [32, 97])).2 :=
  ⟨(claim2_take_space_maximal_run (new [32, 97])).1,
    (claim2_take_space_maximal_run (new [32, 97])).2.1⟩

/-- Claim C3: `slice_from` (modelled from the spec, absent from `src`)
returns exactly the bytes consumed between a mark and the current offset:
the unread view at the mark is that slice followed by the current unread
view, its length is the offset difference, and a bookmark beyond the
offset yields the empty slice by clamping.  It returns a list and no
cursor, so it mutates nothing. -/
theorem claim3_slice_from_consumed (c c' : Cursor)
    (hbuf : c'.buf = c.buf) (hle : c.i ≤ c'.i) (hlen : c'.i ≤ c.buf.length) :
    as_slice c = slice_from c' (mark c) ++ as_slice c' ∧
      (slice_from c' (mark c)).length = c'.i - c.i ∧
      (∀ (d : Cursor) (b : Nat), d.i < b → slice_from d b = []) := by
  refine ⟨?_, ?_, ?_⟩
  · rw [as_slice, as_slice, slice_from, mark, hbuf]
    conv_lhs => rw [← List.take_append_drop c'.i c.buf]
    rw [List.drop_append_of_le_length]
    rw [List.length_take]
    omega
  · rw [slice_from, mark, hbuf, List.length_drop, List.length_take]
    omega
  · intro d b hd
    rw [slice_from]
    apply List.drop_eq_nil_of_le
    rw [List.length_take]
    omega

/-- Witness for claim C3 at `c = new [1, 2]`, `c' = ⟨[1, 2], 1⟩`. -/
theorem claim3_slice_from_consumed_witness :
    as_slice (new [1, 2]) =
        slice_from ⟨[1, 2], 1⟩ (mark (new [1, 2])) ++ as_slice ⟨[1, 2], 1⟩ ∧
      (slice_from ⟨[1, 2], 1⟩ (mark (new [1, 2]))).length = 1 - 0 ∧
      (∀ (d : Cursor) (b : Nat), d.i < b → slice_from d b = []) :=
  claim3_slice_from_consumed (new [1, 2]) ⟨[1, 2], 1⟩ rfl (by decide) (by decide)

/-- Claim C4 (amended): `peek_at`/`peek_n` returns the byte at
`offset + n` (absent when out of range) for every `n` with `offset + n`
below the `usize` width, and `peek_slice` returns `buffer[offset..offset+n]`
exactly when the range is in bounds and absent otherwise, for every
`n < 2 ^ 64`; neither returns a cursor, so neither mutates.  When
`offset + n` overflows, `peek_n` reads the wrapped index instead (see the
counterexample), so the original unconditional claim fails there. -/
theorem claim4_peek_n_peek_slice_amended (c : Cursor) (n : Nat)
    (hbl : c.buf.length < USIZE) (hn : n < USIZE) :
    (c.i + n < USIZE → peek_n c n = c.buf.get? (c.i + n)) ∧
      (c.i + n < USIZE → c.buf.length ≤ c.i + n → peek_n c n = none) ∧
      (c.i + n ≤ c.buf.length → peek_slice c n = some ((c.buf.drop c.i).take n)) ∧
      (c.buf.length < c.i + n → peek_slice c n = none) := by
  refine ⟨?_, ?_, ?_, ?_⟩
  · intro hlt
    rw [peek_n, Nat.mod_eq_of_lt hlt]
  · intro hlt hge
    rw [peek_n, Nat.mod_eq_of_lt hlt]
    exact List.get?_eq_none.mpr hge
  · intro hle
    rw [peek_slice]
    have hlt : c.i + n < USIZE := by omega
    rw [Nat.mod_eq_of_lt hlt]
    rw [if_pos ⟨by omega, hle⟩, Nat.add_sub_cancel_left]
  · intro hgt
    have hU : USIZE = 18446744073709551616 := by norm_num [USIZE]
    rw [hU] at hn hbl
    rw [peek_slice, hU, if_neg]
    intro hcon
    omega

/-- Witness for claim C4 (amended) at `c = new [7]`, `n = 3`. -/
theorem claim4_peek_n_peek_slice_amended_witness :
    (new [7]).buf.length < USIZE ∧ (3 : Nat) < USIZE ∧
      ((new [7]).buf.length < (new [7]).i + 3 → peek_slice (new [7]) 3 = none) :=
  ⟨by decide, by decide,
    (claim4_peek_n_peek_slice_amended (new [7]) 3 (by decide) (by decide)).2.2.2⟩

/-- Claim C4 counterexample: with the cursor on buffer `[7]` advanced to
its end (a state reached by one `next_byte` from fresh), the request
`n = 2 ^ 64 - 1` has `offset + n` past the end of the buffer, yet
`peek_n` returns `some 7` (the wrapped index 0) rather than absent as the
claim demands for every `n`. -/
theorem claim4_peek_n_overflow_counterexample :
    (next_byte (new [7])).2 = ⟨[7], 1⟩ ∧
      List.length [7] ≤ 1 + (USIZE - 1) ∧
      peek_n ⟨[7], 1⟩ (USIZE - 1) = some 7 := by
  refine ⟨by decide, ?_, by decide⟩
  exact Nat.le_add_right 1 (USIZE - 1)

/-- Claim C5: `match_bytes(pattern)` succeeds iff the bytes at the offset
equal the pattern byte for byte (the empty pattern trivially matches),
consumes exactly the pattern length on success and nothing on failure,
cannot succeed when fewer bytes remain than the pattern length (no
out-of-bounds read: the prefix test alone decides), and `expect_bytes` is
externally identical to it. -/
theorem claim5_match_bytes_exact (c : Cursor) (pat : List Nat) (hinv : inv c) :
    ((match_bytes c pat).1 = true ↔ (c.buf.drop c.i).take pat.length = pat) ∧
      ((match_bytes c pat).1 = true →
        (match_bytes c pat).2 = ⟨c.buf, c.i + pat.length⟩) ∧
      ((match_bytes c pat).1 = false → (match_bytes c pat).2 = c) ∧
      match_bytes c [] = (true, c) ∧
      (remaining c < pat.length → (match_bytes c pat).1 = false) ∧
      expect_bytes c pat = match_bytes c pat := by
  have hpre : pat.isPrefixOf (c.buf.drop c.i) = true ↔
      (c.buf.drop c.i).take pat.length = pat := by
    rw [List.isPrefixOf_iff_prefix]
    constructor
    · intro h
      exact (List.prefix_iff_eq_take.mp h).symm
    · intro h
      exact List.prefix_iff_eq_take.mpr h.symm
  have hnil : match_bytes c [] = (true, c) := by
    have hp0 : ([] : List Nat).isPrefixOf (c.buf.drop c.i) = true :=
      List.isPrefixOf_iff_prefix.mpr List.nil_prefix
    have hv : match_bytes c [] =
        (true, ⟨c.buf, c.i + ([] : List Nat).length⟩) := by
      simp [match_bytes, hp0]
    exact hv
  have hexp : expect_bytes c pat =
      if (match_bytes c pat).1 then (true, (match_bytes c pat).2)
      else (false, reset (match_bytes c pat).2 (mark c)) := rfl
  by_cases hp : pat.isPrefixOf (c.buf.drop c.i) = true
  · have h1 : match_bytes c pat = (true, ⟨c.buf, c.i + pat.length⟩) := by
      simp [match_bytes, hp]
    refine ⟨?_, ?_, ?_, hnil, ?_, ?_⟩
    · rw [h1]
      exact ⟨fun _ => hpre.mp hp, fun _ => rfl⟩
    · intro _
      rw [h1]
    · intro hx
      rw [h1] at hx
      exact absurd hx (by simp)
    · intro hrem
      exfalso
      have hlen : pat.length ≤ (c.buf.drop c.i).length :=
        (List.isPrefixOf_iff_prefix.mp hp).length_le
      rw [List.length_drop] at hlen
      rw [remaining] at hrem
      omega
    · rw [hexp, h1]
      simp
  · have h0 : match_bytes c pat = (false, c) := by
      simp [match_bytes, hp]
    refine ⟨?_, ?_, ?_, hnil, ?_, ?_⟩
    · constructor
      · intro hx
        rw [h0] at hx
        exact absurd hx (by simp)
      · intro hx
        exact absurd (hpre.mpr hx) hp
    · intro hx
      rw [h0] at hx
      exact absurd hx (by simp)
    · intro _
      rw [h0]
    · intro _
      rw [h0]
    · rw [hexp, h0]
      show (false, reset c (mark c)) = (false, c)
      have hm : Nat.min c.i c.buf.length = c.i := by
        rw [inv] at hinv
        have hmm : Min.min c.i c.buf.length = c.i := by omega
        exact hmm
      rw [reset, mark, hm]

/-- Witness for claim C5 at `c = new [97, 98, 99]`,
`pat = [122, 122, 122]`. -/
theorem claim5_match_bytes_exact_witness :
    inv (new [97, 98, 99]) ∧
      expect_bytes (new [97, 98, 99]) [122, 122, 122] =
        match_bytes (new [97, 98, 99]) [122, 122, 122] :=
  ⟨Nat.zero_le _,
    (claim5_match_bytes_exact (new [97, 98, 99]) [122, 122, 122]
      (Nat.zero_le _)).2.2.2.2.2⟩

theorem take_until_unescaped_eq (c : Cursor) (delim esc : Nat) :
    take_until_unescaped c delim esc =
      (((tuuLoop delim esc c).i - c.i,
        peek (tuuLoop delim esc c) == some delim), tuuLoop delim esc c) := rfl

/-- Claim C6: `take_until_unescaped` reports the bytes advanced; its
found flag is true exactly when the scan stopped before the end of the
buffer, and then the unconsumed current byte is the delimiter; whenever
the current byte equals the escape it and the following byte are skipped
unconditionally, without delimiter testing; a state whose current byte
is the (unescaped) delimiter halts at once, consuming nothing further
and reporting found = true (so the scan stops at the first unescaped
delimiter); any other byte is consumed one at a time; at end of buffer
the scan halts with found = false; an escape as the final byte is
consumed alone; and on bytes `a \ , b` with delimiter `,` and escape
`\` it consumes all 4 bytes and reports found = false.  Together the
step and halt equations characterize the scan uniquely. -/
theorem claim6_take_until_unescaped_spec (c : Cursor) (delim esc : Nat) :
    (take_until_unescaped c delim esc).1.1 =
        (take_until_unescaped c delim esc).2.i - c.i ∧
      ((take_until_unescaped c delim esc).1.2 = true ↔
        eof (take_until_unescaped c delim esc).2 = false) ∧
      ((take_until_unescaped c delim esc).1.2 = true →
        peek (take_until_unescaped c delim esc).2 = some delim) ∧
      (∀ (d : Cursor), peek d = some esc → d.i + 1 < d.buf.length →
        (take_until_unescaped d delim esc).2 =
          (take_until_unescaped ⟨d.buf, d.i + 1 + 1⟩ delim esc).2 ∧
        (take_until_unescaped d delim esc).1.1 =
          2 + (take_until_unescaped ⟨d.buf, d.i + 1 + 1⟩ delim esc).1.1) ∧
      (∀ (d : Cursor), peek d = some esc → d.buf.length = d.i + 1 →
        take_until_unescaped d delim esc = ((1, false), ⟨d.buf, d.i + 1⟩)) ∧
      (∀ (d : Cursor), peek d = some delim → delim ≠ esc →
        take_until_unescaped d delim esc = ((0, true), d)) ∧
      (∀ (d : Cursor) (b0 : Nat), peek d = some b0 → b0 ≠ esc → b0 ≠ delim →
        (take_until_unescaped d delim esc).2 =
          (take_until_unescaped ⟨d.buf, d.i + 1⟩ delim esc).2 ∧
        (take_until_unescaped d delim esc).1.1 =
          1 + (take_until_unescaped ⟨d.buf, d.i + 1⟩ delim esc).1.1) ∧
      (∀ (d : Cursor), peek d = none →
        take_until_unescaped d delim esc = ((0, false), d)) ∧
      take_until_unescaped (new [97, 92, 44, 98]) 44 92 =
        ((4, false), ⟨[97, 92, 44, 98], 4⟩) := by
  obtain ⟨hbuf, hmono, hinv2, hshape⟩ := tuuLoop_spec delim esc c
  refine ⟨rfl, ?_, ?_, ?_, ?_, ?_, ?_, ?_, ?_⟩
  · show (peek (tuuLoop delim esc c) == some delim) = true ↔
      eof (tuuLoop delim esc c) = false
    rcases hshape with hsh | ⟨hsh, hne⟩
    · have he : eof (tuuLoop delim esc c) = true := by
        simp only [eof, decide_eq_true_eq]
        exact peek_eq_none_iff.mp hsh
      rw [hsh, he]
      have hb0 : ((none : Option Nat) == some delim) = false := rfl
      rw [hb0]
      simp
    · have he : eof (tuuLoop delim esc c) = false := by
        simp only [eof, decide_eq_false_iff_not]
        have := lt_length_of_peek_some hsh
        omega
      rw [hsh, he]
      simp
  · intro hf
    rcases hshape with hsh | ⟨hsh, hne⟩
    · exfalso
      have hf2 : (peek (tuuLoop delim esc c) == some delim) = true := hf
      rw [hsh] at hf2
      have hb0 : ((none : Option Nat) == some delim) = false := rfl
      rw [hb0] at hf2
      exact absurd hf2 (by simp)
    · exact hsh
  · intro d hpk hlt
    have hend : eof (⟨d.buf, d.i + 1⟩ : Cursor) = false := by
      simp only [eof, decide_eq_false_iff_not]
      omega
    have hloop : tuuLoop delim esc d = tuuLoop delim esc ⟨d.buf, d.i + 1 + 1⟩ := by
      rw [tuuLoop_peek_esc hpk, hend]
      exact rfl
    obtain ⟨hbuf2, hmono2, _, _⟩ := tuuLoop_spec delim esc ⟨d.buf, d.i + 1 + 1⟩
    dsimp only at hmono2
    constructor
    · show tuuLoop delim esc d = tuuLoop delim esc ⟨d.buf, d.i + 1 + 1⟩
      exact hloop
    · show (tuuLoop delim esc d).i - d.i =
        2 + ((tuuLoop delim esc ⟨d.buf, d.i + 1 + 1⟩).i - (d.i + 1 + 1))
      rw [hloop]
      omega
  · intro d hpk hlen
    have hend : eof (⟨d.buf, d.i + 1⟩ : Cursor) = true := by
      simp only [eof, decide_eq_true_eq]
      omega
    have hpn : peek (⟨d.buf, d.i + 1⟩ : Cursor) = none := by
      apply peek_eq_none_iff.mpr
      show d.buf.length ≤ d.i + 1
      omega
    have hloop : tuuLoop delim esc d = ⟨d.buf, d.i + 1⟩ := by
      rw [tuuLoop_peek_esc hpk, hend, if_pos rfl, tuuLoop_peek_none hpn]
    rw [take_until_unescaped_eq, hloop, hpn]
    have hb0 : ((none : Option Nat) == some delim) = false := rfl
    rw [hb0]
    have h1 : (⟨d.buf, d.i + 1⟩ : Cursor).i - d.i = 1 := by
      show d.i + 1 - d.i = 1
      omega
    rw [h1]
  · intro d hpk hne
    rw [take_until_unescaped_eq, tuuLoop_peek_delim hpk hne, hpk]
    rw [Nat.sub_self]
    have hb1 : ((some delim : Option Nat) == some delim) = true := by simp
    rw [hb1]
  · intro d b0 hpk hne hnd
    have hloop : tuuLoop delim esc d = tuuLoop delim esc ⟨d.buf, d.i + 1⟩ :=
      tuuLoop_peek_step hpk hne hnd
    obtain ⟨_, hmono2, _, _⟩ := tuuLoop_spec delim esc ⟨d.buf, d.i + 1⟩
    dsimp only at hmono2
    constructor
    · show tuuLoop delim esc d = tuuLoop delim esc ⟨d.buf, d.i + 1⟩
      exact hloop
    · show (tuuLoop delim esc d).i - d.i =
        1 + ((tuuLoop delim esc ⟨d.buf, d.i + 1⟩).i - (d.i + 1))
      rw [hloop]
      omega
  · intro d hpk
    rw [take_until_unescaped_eq, tuuLoop_peek_none hpk, hpk]
    rw [Nat.sub_self]
    have hb0 : ((none : Option Nat) == some delim) = false := rfl
    rw [hb0]
  · have e0 : tuuLoop 44 92 ⟨[97, 92, 44, 98], 0⟩ = tuuLoop 44 92 ⟨[97, 92, 44, 98], 1⟩ :=
      tuuLoop_peek_step rfl (by decide) (by decide)
    have e1 : tuuLoop 44 92 ⟨[97, 92, 44, 98], 1⟩ = tuuLoop 44 92 ⟨[97, 92, 44, 98], 3⟩ := by
      rw [tuuLoop_peek_esc
        (show peek (⟨[97, 92, 44, 98], 1⟩ : Cursor) = some 92 from rfl)]
      exact rfl
    have e2 : tuuLoop 44 92 ⟨[97, 92, 44, 98], 3⟩ = tuuLoop 44 92 ⟨[97, 92, 44, 98], 4⟩ :=
      tuuLoop_peek_step rfl (by decide) (by decide)
    have e3 : tuuLoop 44 92 ⟨[97, 92, 44, 98], 4⟩ = ⟨[97, 92, 44, 98], 4⟩ :=
      tuuLoop_peek_none rfl
    rw [take_until_unescaped_eq]
    show (((tuuLoop 44 92 ⟨[97, 92, 44, 98], 0⟩).i - 0,
      peek (tuuLoop 44 92 ⟨[97, 92, 44, 98], 0⟩) == some 44),
      tuuLoop 44 92 ⟨[97, 92, 44, 98], 0⟩) = _
    rw [e0, e1, e2, e3]
    decide

/-- Witness for claim C6: the concrete escaped scan, extracted from the
theorem applied at `c = new [97, 92, 44, 98]`. -/
theorem claim6_take_until_unescaped_spec_witness :
    take_until_unescaped (new [97, 92, 44, 98]) 44 92 =
      ((4, false), ⟨[97, 92, 44, 98], 4⟩) :=
  (claim6_take_until_unescaped_spec (new [97, 92, 44, 98]) 44 92).2.2.2.2.2.2.2.2

/-- Claim C7: `take_while(p)` is absent exactly when the predicate fails
on the byte at the starting offset or the cursor is already at end, and
then consumes nothing; otherwise it returns the span of the maximal
leading run; `skip_while(p)` performs the same traversal (same final
state, never absent since it returns a count) and its reported length is
the number of leading bytes satisfying `p`. -/
theorem claim7_take_while_skip_while (p : Nat → Bool) (c : Cursor) :
    ((take_while p c).1 = none ↔
      (peek c = none ∨ ∃ b, peek c = some b ∧ p b = false)) ∧
      ((take_while p c).1 = none → (take_while p c).2 = c) ∧
      ((take_while p c).1 ≠ none →
        (take_while p c).1 =
          some (c.i, c.i + ((c.buf.drop c.i).takeWhile p).length)) ∧
      (skip_while p c).1 = ((c.buf.drop c.i).takeWhile p).length ∧
      (skip_while p c).2 =
        ⟨c.buf, c.i + ((c.buf.drop c.i).takeWhile p).length⟩ ∧
      (skip_while p c).2 = (take_while p c).2 := by
  obtain ⟨h2, hiff, hnone, hsome⟩ := take_while_spec p c
  have hzero : ((c.buf.drop c.i).takeWhile p).length = 0 ↔
      (peek c = none ∨ ∃ b, peek c = some b ∧ p b = false) := by
    match hb : peek c with
    | none =>
        rw [List.drop_eq_nil_of_le (peek_eq_none_iff.mp hb)]
        simp
    | some b =>
        rw [drop_eq_cons_of_peek_some hb, List.takeWhile_cons]
        by_cases hp : p b = true
        · rw [if_pos hp]
          simp [hp]
        · rw [if_neg hp]
          simp only [List.length_nil, true_iff]
          exact Or.inr ⟨b, rfl, Bool.of_not_eq_true hp⟩
  refine ⟨hiff.trans hzero, hnone, hsome, ?_, ?_, rfl⟩
  · show (scanWhile p c).i - c.i = _
    rw [scanWhile_i]
    omega
  · show scanWhile p c = _
    rw [scanWhile_eq]

/-- Witness for claim C7 at `p = is_digit_ascii`, `c = new [49, 97]`. -/
theorem claim7_take_while_skip_while_witness :
    ((take_while is_digit_ascii (new [49, 97])).1 = none ↔
      (peek (new [49, 97]) = none ∨
        ∃ b, peek (new [49, 97]) = some b ∧ is_digit_ascii b = false)) ∧
      (skip_while is_digit_ascii (new [49, 97])).1 =
        (((new [49, 97]).buf.drop (new [49, 97]).i).takeWhile is_digit_ascii).length :=
  ⟨(claim7_take_while_skip_while is_digit_ascii (new [49, 97])).1,
    (claim7_take_while_skip_while is_digit_ascii (new [49, 97])).2.2.2.1⟩

/-- Claim C8: from a fresh cursor, repeatedly calling `next_byte` yields
exactly the bytes of the buffer in order; once at end, `next_byte`
returns absent and leaves the state unchanged (hence forever); and the
iterator step is exactly `next_byte`. -/
theorem claim8_next_byte_stream (buf : List Nat) (c : Cursor) :
    drain (new buf) = buf ∧
      (eof c = true → next_byte c = (none, c)) ∧
      iterNext = next_byte := by
  refine ⟨?_, ?_, rfl⟩
  · rw [drain_eq]
    exact List.drop_zero buf
  · intro he
    apply next_byte_peek_none
    apply peek_eq_none_iff.mpr
    simpa [eof] using he

/-- Witness for claim C8 at `buf = [5]` and the exhausted state
`⟨[5], 1⟩`. -/
theorem claim8_next_byte_stream_witness :
    drain (new [5]) = [5] ∧ next_byte ⟨[5], 1⟩ = (none, ⟨[5], 1⟩) :=
  ⟨(claim8_next_byte_stream [5] ⟨[5], 1⟩).1,
    (claim8_next_byte_stream [5] ⟨[5], 1⟩).2.1 (by decide)⟩

/-- Claim C9: the invariant `0 <= offset <= length(buffer)` holds after
construction and is preserved by every state-changing operation of the
Cursor, for every argument: in particular `reset` with an arbitrary
bookmark (clamped unconditionally) and the escape-pair skipping of
`take_until_unescaped`.  The lower bound is inherent in the `Nat`
offset. -/
theorem claim9_offset_invariant (c : Cursor) (hinv : inv c)
    (buf pat : List Nat) (n b m delim esc a2 b2 : Nat) (p : Nat → Bool) :
    inv (new buf) ∧
      inv (next_byte c).2 ∧
      inv (advance c n).2 ∧
      inv (skip_byte c b).2 ∧
      (∀ (d : Cursor), inv (reset d m)) ∧
      inv (skip_space c).2 ∧
      inv (skip_until c b).2 ∧
      inv (match_bytes c pat).2 ∧
      inv (expect_bytes c pat).2 ∧
      inv (take_ident_ascii c).2 ∧
      inv (take_ident_starting_alpha c).2 ∧
      inv (take_int_ascii c).2 ∧
      inv (skip_while p c).2 ∧
      inv (take_while p c).2 ∧
      inv (expect_byte c b).2 ∧
      inv (take_until_unescaped c delim esc).2 ∧
      inv (take_until_unescaped2 c a2 b2 esc).2 ∧
      inv (iterNext c).2 ∧
      inv (take_space c).2 := by
  have hinv' : c.i ≤ c.buf.length := hinv
  have hnb : inv (next_byte c).2 := by
    match hb : peek c with
    | none =>
        rw [next_byte_peek_none hb]
        exact hinv
    | some b0 =>
        rw [next_byte_peek_some hb]
        show c.i + 1 ≤ c.buf.length
        have := lt_length_of_peek_some hb
        omega
  have hsw : ∀ (q : Nat → Bool), inv (scanWhile q c) :=
    fun q => scanWhile_inv hinv
  have hrst : ∀ (d : Cursor) (k : Nat), inv (reset d k) := by
    intro d k
    show Nat.min k d.buf.length ≤ d.buf.length
    have hmm : Min.min k d.buf.length ≤ d.buf.length := by omega
    exact hmm
  have hsb : inv (skip_byte c b).2 := by
    simp only [skip_byte]
    split
    · next hq =>
        show c.i + 1 ≤ c.buf.length
        have := lt_length_of_peek_some hq
        omega
    · exact hinv
  have hmbinv : inv (match_bytes c pat).2 := by
    by_cases hp : pat.isPrefixOf (c.buf.drop c.i) = true
    · have h1 : match_bytes c pat = (true, ⟨c.buf, c.i + pat.length⟩) := by
        simp [match_bytes, hp]
      rw [h1]
      show c.i + pat.length ≤ c.buf.length
      have hlen : pat.length ≤ (c.buf.drop c.i).length :=
        (List.isPrefixOf_iff_prefix.mp hp).length_le
      rw [List.length_drop] at hlen
      omega
    · have h0 : match_bytes c pat = (false, c) := by
        simp [match_bytes, hp]
      rw [h0]
      exact hinv
  have hexp2 : inv (expect_bytes c pat).2 := by
    have hexp : expect_bytes c pat =
        if (match_bytes c pat).1 then (true, (match_bytes c pat).2)
        else (false, reset (match_bytes c pat).2 (mark c)) := rfl
    rw [hexp]
    split
    · exact hmbinv
    · exact hrst _ _
  have hepb : inv (expect_byte c b).2 := by
    have hexp : expect_byte c b =
        if (skip_byte c b).1 then (true, (skip_byte c b).2)
        else (false, reset (skip_byte c b).2 (mark c)) := rfl
    rw [hexp]
    split
    · exact hsb
    · exact hrst _ _
  have hisa : inv (take_ident_starting_alpha c).2 := by
    match hb : peek c with
    | none =>
        simp only [take_ident_starting_alpha, hb]
        exact hinv
    | some b0 =>
        simp only [take_ident_starting_alpha, hb]
        split
        · show inv (scanWhile is_ident_continue_ascii ⟨c.buf, c.i + 1⟩)
          apply scanWhile_inv
          show c.i + 1 ≤ c.buf.length
          have := lt_length_of_peek_some hb
          omega
        · exact hinv
  have hint : inv (take_int_ascii c).2 := by
    match hb : peek c with
    | none =>
        simp only [take_int_ascii, hb]
        exact hinv
    | some b0 =>
        simp only [take_int_ascii, hb]
        split
        · exact hsw is_digit_ascii
        · exact hinv
  have hsu : inv (skip_until c b).2 := by
    match hf : (c.buf.drop c.i).findIdx? (fun x => x == b) with
    | some off =>
        simp only [skip_until, hf]
        show c.i + off ≤ c.buf.length
        have hb2 := findIdx?_bounds (c.buf.drop c.i) 0 off hf
        rw [List.length_drop] at hb2
        omega
    | none =>
        simp only [skip_until, hf]
        show c.buf.length ≤ c.buf.length
        exact le_rfl
  have htuu : inv (take_until_unescaped c delim esc).2 := by
    obtain ⟨hb1, _, h3, _⟩ := tuuLoop_spec delim esc c
    show inv (tuuLoop delim esc c)
    rw [inv, hb1]
    exact h3 hinv
  have htuu2 : inv (take_until_unescaped2 c a2 b2 esc).2 := by
    obtain ⟨hb1, _, h3, _⟩ := tuu2Loop_spec a2 b2 esc c
    show inv (tuu2Loop a2 b2 esc c)
    rw [inv, hb1]
    exact h3 hinv
  have hadv : inv (advance c n).2 := by
    show c.i + (if n > remaining c then remaining c else n) ≤ c.buf.length
    rw [remaining]
    split <;> omega
  exact ⟨Nat.zero_le _, hnb, hadv, hsb, fun d => hrst d m,
    hsw is_space_ascii, hsu, hmbinv, hexp2, hsw is_ident_continue_ascii,
    hisa, hint, hsw p, hsw p, hepb, htuu, htuu2, hnb, hsw is_space_ascii⟩

/-- Witness for claim C9 at `c = new [1, 2]` with concrete arguments. -/
theorem claim9_offset_invariant_witness :
    inv (new [1, 2]) ∧ inv (advance (new [1, 2]) 5).2 :=
  ⟨Nat.zero_le _,
    (claim9_offset_invariant (new [1, 2]) (Nat.zero_le _) [3] [1] 5 0 7 44 92
      97 98 is_digit_ascii).2.2.1⟩

/-- Claim C10: when the delimiter equals the escape byte the escape
branch takes precedence at every occurrence, so `take_until_unescaped`
consumes everything to the end of the buffer and reports found = false;
and `take_until_unescaped2` never reports a found delimiter equal to its
escape byte. -/
theorem claim10_delim_equals_escape (c : Cursor) (e a2 b2 esc : Nat)
    (hinv : inv c) :
    take_until_unescaped c e e =
      ((c.buf.length - c.i, false), ⟨c.buf, c.buf.length⟩) ∧
      (take_until_unescaped2 c a2 b2 esc).1.2 ≠ some esc := by
  constructor
  · have hl := tuuLoop_delim_eq_esc e c hinv
    rw [take_until_unescaped_eq, hl]
    have hpn : peek (⟨c.buf, c.buf.length⟩ : Cursor) = none :=
      peek_eq_none_iff.mpr le_rfl
    rw [hpn]
    have hb0 : ((none : Option Nat) == some e) = false := rfl
    rw [hb0]
  · obtain ⟨_, _, _, hshape⟩ := tuu2Loop_spec a2 b2 esc c
    have hfound : (take_until_unescaped2 c a2 b2 esc).1.2 =
        match peek (tuu2Loop a2 b2 esc c) with
        | some x => if x == a2 || x == b2 then some x else none
        | none => none := rfl
    rw [hfound]
    rcases hshape with hsh | ⟨x, hsh, hxe, hxab⟩
    · rw [hsh]
      simp
    · rw [hsh]
      have hcond : (x == a2 || x == b2) = true := by
        rcases hxab with rfl | rfl <;> simp
      dsimp only
      rw [hcond]
      simp [hxe]

/-- Witness for claim C10 at `c = new [97, 92, 98]` with
delimiter = escape = 92 for the first part and escape 92 with distinct
delimiters for the second. -/
theorem claim10_delim_equals_escape_witness :
    take_until_unescaped (new [97, 92, 98]) 92 92 =
      ((3, false), ⟨[97, 92, 98], 3⟩) ∧
      (take_until_unescaped2 (new [97, 92, 98]) 44 59 92).1.2 ≠ some 92 :=
  ⟨(claim10_delim_equals_escape (new [97, 92, 98]) 92 44 59 92
      (Nat.zero_le _)).1,
    (claim10_delim_equals_escape (new [97, 92, 98]) 92 44 59 92
      (Nat.zero_le _)).2⟩

end Cursor

end CursorCore
